import Mathlib

/-!
Verification of the restruct format-string compiler and codec generator.

The definitions below are a shallow embedding of `impl/src/parser.rs` and
`impl/src/generator.rs`: the modifier model, the post-expansion field list,
the layout resolver (offset / alignment / size constants), and the generated
`pack` / `unpack` / `unpack_slice` operations.  Machine integers are modelled
as `Nat` / `Int` with explicit two's-complement encoding; `f32` / `f64`
values are modelled by their IEEE-754 bit patterns (the code only ever
transmutes them bit-for-bit).  Platform-dependent quantities (native C type
widths and alignments, pointer width, endianness) are collected in a
`Platform` record.
-/

namespace Restruct

/-- Byte order, from `parser.rs` `ByteOrder`. -/
inductive ByteOrder where
  | native
  | littleEndian
  | bigEndian
deriving DecidableEq

/-- Leading mode modifier, from `parser.rs` `Modifier`. -/
inductive Modifier where
  | native
  | nativeStandard
  | littleEndian
  | bigEndian
deriving DecidableEq

/-- `Modifier::byte_order`. -/
def Modifier.byteOrder : Modifier → ByteOrder
  | .native => .native
  | .nativeStandard => .native
  | .littleEndian => .littleEndian
  | .bigEndian => .bigEndian

/-- `Modifier::native_types`: true exactly for `Modifier::Native`. -/
def Modifier.nativeTypes : Modifier → Bool
  | .native => true
  | _ => false

/-- `Modifier::default()` is `Modifier::Native`. -/
def Modifier.default : Modifier := .native

/-- The modifier character mapping of `parser.rs` `parse`. -/
def modifierOfChar : Char → Option Modifier
  | '@' => some .native
  | '=' => some .nativeStandard
  | '<' => some .littleEndian
  | '>' => some .bigEndian
  | '!' => some .bigEndian
  | _ => none

/-- Platform parameters: byte-order of the target, widths and alignments of
the native C types named by `libc`, and alignments of the fixed-width Rust
primitive types (used for fields of nested codecs compiled in standard
modes).  `c_char`, `bool` and `u8` always have size and alignment 1. -/
structure Platform where
  isLE : Bool
  shortSize : Nat
  intSize : Nat
  longSize : Nat
  longLongSize : Nat
  sizeSize : Nat
  shortAlign : Nat
  intAlign : Nat
  longAlign : Nat
  longLongAlign : Nat
  sizeAlign : Nat
  floatAlign : Nat
  doubleAlign : Nat
  a2 : Nat
  a4 : Nat
  a8 : Nat
deriving DecidableEq

/-- Sanity conditions every real platform satisfies: positive widths and
alignments. -/
def Platform.WF (p : Platform) : Prop :=
  1 ≤ p.shortSize ∧ 1 ≤ p.intSize ∧ 1 ≤ p.longSize ∧ 1 ≤ p.longLongSize ∧
  1 ≤ p.sizeSize ∧ 1 ≤ p.shortAlign ∧ 1 ≤ p.intAlign ∧ 1 ≤ p.longAlign ∧
  1 ≤ p.longLongAlign ∧ 1 ≤ p.sizeAlign ∧ 1 ≤ p.floatAlign ∧
  1 ≤ p.doubleAlign ∧ 1 ≤ p.a2 ∧ 1 ≤ p.a4 ∧ 1 ≤ p.a8

instance (p : Platform) : Decidable p.WF := by
  unfold Platform.WF; infer_instance

/-- x86-64 Linux: little-endian, `c_long` and pointers are 8 bytes. -/
def x8664 : Platform :=
  ⟨true, 2, 4, 8, 8, 8, 2, 4, 8, 8, 8, 4, 8, 2, 4, 8⟩

/-- 32-bit i386 Linux: little-endian, `c_long` and pointers are 4 bytes,
64-bit integers only 4-byte aligned. -/
def i386 : Platform :=
  ⟨true, 2, 4, 4, 8, 4, 2, 4, 4, 4, 4, 4, 4, 2, 4, 4⟩

/-- The effective little-endian flag of `to_le_bytes` / `to_be_bytes` /
`to_ne_bytes` selected by `Field::to_bytes` for a modifier on a platform. -/
def effLE (p : Platform) (m : Modifier) : Bool :=
  match m.byteOrder with
  | .littleEndian => true
  | .bigEndian => false
  | .native => p.isLE

/-- Little-endian byte decomposition of a natural number into `w` bytes,
as `to_le_bytes` produces for an in-range value. -/
def natLeBytes : Nat → Nat → List Nat
  | 0, _ => []
  | w + 1, v => v % 256 :: natLeBytes w (v / 256)

/-- Recomposition of a little-endian byte list, as `from_le_bytes`. -/
def leBytesNat : List Nat → Nat
  | [] => 0
  | b :: bs => b + 256 * leBytesNat bs

/-- Put little-endian bytes into the stored order (or recover the
little-endian order from the stored order). -/
def ordBytes (le : Bool) (bs : List Nat) : List Nat :=
  if le then bs else bs.reverse

/-- Two's-complement encoding of a signed value into `w` little-endian
bytes, as `iN::to_le_bytes`. -/
def intLeBytes (w : Nat) (v : Int) : List Nat :=
  natLeBytes w (v % ((2 : Int) ^ (8 * w))).toNat

/-- Two's-complement reading of a `w`-byte unsigned recomposition, as
`iN::from_le_bytes`. -/
def decodeInt (w : Nat) (n : Nat) : Int :=
  if n < 2 ^ (8 * w - 1) then (n : Int) else (n : Int) - (2 : Int) ^ (8 * w)

mutual
/-- Semantic field kinds (`generator.rs` `Format`) together with the
post-expansion field list.  A nested reference (`Format::Ident`) links to the
referenced codec, which carries its own modifier and field list, so
`ident` stores that compilation directly. -/
inductive Fmt where
  | array (sz : Nat)
  | bool
  | char
  | uchar
  | short
  | ushort
  | int
  | uint
  | long
  | ulong
  | longLong
  | ulongLong
  | size
  | usize
  | float
  | double
  | pad (sz : Nat)
  | ident (m : Modifier) (sub : Fields)

inductive Fields where
  | nil
  | cons (fmt : Fmt) (materialize : Bool) (rest : Fields)
end

/-- Number of materialized fields: the arity of the unpacked tuple. -/
def Fields.matCount : Fields → Nat
  | .nil => 0
  | .cons _ mat rest => (if mat then 1 else 0) + rest.matCount

/-- Structured (unpacked) values.  Floats are carried as their IEEE-754 bit
patterns, which is exactly how the generated code treats them (it only ever
transmutes them to and from same-width unsigned integers). -/
inductive Value where
  | vint (n : Int)
  | vnat (n : Nat)
  | vbool (b : Bool)
  | vfloat (bits : Nat)
  | vdouble (bits : Nat)
  | vbytes (bs : List Nat)
  | vtuple (vs : List Value)

/-- The byte width of a scalar field type in the given width mode
(`Field::size_expr` for a materialized field; `Field::tipe` widths).  Note
that `size` / `usize` map to `libc::ssize_t` / `libc::size_t` in native mode
and to `isize` / `usize` in standard modes: pointer-sized either way. -/
def scalarWidth (p : Platform) (native : Bool) : Fmt → Nat
  | .array sz => sz
  | .bool => 1
  | .char => 1
  | .uchar => 1
  | .short => if native then p.shortSize else 2
  | .ushort => if native then p.shortSize else 2
  | .int => if native then p.intSize else 4
  | .uint => if native then p.intSize else 4
  | .long => if native then p.longSize else 4
  | .ulong => if native then p.longSize else 4
  | .longLong => if native then p.longLongSize else 8
  | .ulongLong => if native then p.longLongSize else 8
  | .size => p.sizeSize
  | .usize => p.sizeSize
  | .float => 4
  | .double => 8
  | .pad sz => sz
  | .ident _ _ => 0

/-- The alignment correction computed by the generated `const fn align<T>`:
`offset = ptr % align; (offset != 0) as usize * (align - offset)`. -/
def alignCorr (align ptr : Nat) : Nat :=
  if ptr % align = 0 then 0 else align - ptr % align

mutual
/-- `Field::size_expr`: the payload byte count of a field.  Padding always
contributes its declared length; any other non-materialized field
contributes 0 payload bytes; a nested reference contributes the referenced
codec's `SIZE`. -/
def payloadSize (p : Platform) (m : Modifier) (mat : Bool) : Fmt → Nat
  | .pad sz => sz
  | .ident m' sub => if mat then sizeFrom p m' sub 0 else 0
  | f => if mat then scalarWidth p m.nativeTypes f else 0

/-- `std::mem::align_of` of the Rust type `Field::tipe` resolves to, on the
given platform.  For a nested reference this is the alignment of the
referenced codec's unpacked tuple type: the maximum alignment of its
materialized element types (at least 1). -/
def alignOf (p : Platform) (native : Bool) : Fmt → Nat
  | .array _ => 1
  | .pad _ => 1
  | .bool => 1
  | .char => 1
  | .uchar => 1
  | .short => if native then p.shortAlign else p.a2
  | .ushort => if native then p.shortAlign else p.a2
  | .int => if native then p.intAlign else p.a4
  | .uint => if native then p.intAlign else p.a4
  | .long => if native then p.longAlign else p.a4
  | .ulong => if native then p.longAlign else p.a4
  | .longLong => if native then p.longLongAlign else p.a8
  | .ulongLong => if native then p.longLongAlign else p.a8
  | .size => p.sizeAlign
  | .usize => p.sizeAlign
  | .float => if native then p.floatAlign else p.a4
  | .double => if native then p.doubleAlign else p.a8
  | .ident m' sub => alignMax p m' sub

/-- Maximum alignment of the materialized element types of a field list,
with 1 for the empty tuple. -/
def alignMax (p : Platform) (m : Modifier) : Fields → Nat
  | .nil => 1
  | .cons f mat rest =>
      if mat then max (alignOf p m.nativeTypes f) (alignMax p m rest)
      else alignMax p m rest

/-- Total packed bytes contributed by a field list starting at byte offset
`off`: each field contributes its alignment correction (native mode only)
plus its payload size, exactly as the generated per-field constants add up.
`sizeFrom p m fs 0` is the record's `SIZE`. -/
def sizeFrom (p : Platform) (m : Modifier) : Fields → Nat → Nat
  | .nil, _ => 0
  | .cons f mat rest, off =>
      let al := if m.nativeTypes then alignCorr (alignOf p m.nativeTypes f) off else 0
      let psz := payloadSize p m mat f
      al + psz + sizeFrom p m rest (off + al + psz)
end

/-- One resolved field: the data of the generated `FIELDx_OFFSET`,
`FIELDx_ALIGNMENT` and `FIELDx_SIZE` constants (`Compilation::fields`). -/
structure RField where
  fmt : Fmt
  materialize : Bool
  offset : Nat
  alignment : Nat
  size : Nat

/-- The layout resolver: first field at `offset = 0` with `alignment = 0`
(note `alignCorr a 0 = 0`), each following field at the previous offset plus
the previous size, alignment corrected only in native mode, field size equal
to alignment plus payload. -/
def resolveAux (p : Platform) (m : Modifier) : Fields → Nat → List RField
  | .nil, _ => []
  | .cons f mat rest, off =>
      let al := if m.nativeTypes then alignCorr (alignOf p m.nativeTypes f) off else 0
      let psz := payloadSize p m mat f
      ⟨f, mat, off, al, al + psz⟩ :: resolveAux p m rest (off + al + psz)

def resolve (p : Platform) (m : Modifier) (fs : Fields) : List RField :=
  resolveAux p m fs 0

/-- `Compilation::size`: the last field's offset plus its size, or 0 for an
empty field list. -/
def SIZE (p : Platform) (m : Modifier) (fs : Fields) : Nat :=
  match (resolve p m fs).getLast? with
  | none => 0
  | some r => r.offset + r.size

mutual
/-- `Compilation::pack`: the packed buffer is the concatenation, in field
order, of `alignment` zero bytes followed by the field's payload encoding
(`Field::pack_expr`); a non-materialized field's payload region is all
zeros and consumes no input value. -/
def packFields (p : Platform) (m : Modifier) : Fields → List Value → Nat → List Nat
  | .nil, _, _ => []
  | .cons f mat rest, vs, off =>
      let al := if m.nativeTypes then alignCorr (alignOf p m.nativeTypes f) off else 0
      let psz := payloadSize p m mat f
      if mat then
        match vs with
        | v :: rvs =>
            List.replicate al 0 ++ packPayload p m f v ++
              packFields p m rest rvs (off + al + psz)
        | [] =>
            List.replicate al 0 ++ List.replicate psz 0 ++
              packFields p m rest [] (off + al + psz)
      else
        List.replicate al 0 ++ List.replicate psz 0 ++
          packFields p m rest vs (off + al + psz)

/-- `Field::pack_expr`: integers are byte-order-converted at their
mode-determined width, a bool becomes one byte (1 or 0), floats are
transmuted to the same-width unsigned integer and converted like integers,
a byte array is copied verbatim, padding packs to zeros and a nested
reference delegates to the referenced codec's `pack`.  A value of the wrong
shape yields `[]` (unreachable: the Rust tuple types make it impossible). -/
def packPayload (p : Platform) (m : Modifier) : Fmt → Value → List Nat
  | .pad sz, _ => List.replicate sz 0
  | .array _, .vbytes bs => bs
  | .bool, .vbool b => [if b then 1 else 0]
  | .float, .vfloat bits => ordBytes (effLE p m) (natLeBytes 4 bits)
  | .double, .vdouble bits => ordBytes (effLE p m) (natLeBytes 8 bits)
  | .char, .vint n => ordBytes (effLE p m) (intLeBytes (scalarWidth p m.nativeTypes .char) n)
  | .short, .vint n => ordBytes (effLE p m) (intLeBytes (scalarWidth p m.nativeTypes .short) n)
  | .int, .vint n => ordBytes (effLE p m) (intLeBytes (scalarWidth p m.nativeTypes .int) n)
  | .long, .vint n => ordBytes (effLE p m) (intLeBytes (scalarWidth p m.nativeTypes .long) n)
  | .longLong, .vint n =>
      ordBytes (effLE p m) (intLeBytes (scalarWidth p m.nativeTypes .longLong) n)
  | .size, .vint n => ordBytes (effLE p m) (intLeBytes (scalarWidth p m.nativeTypes .size) n)
  | .uchar, .vnat n => ordBytes (effLE p m) (natLeBytes (scalarWidth p m.nativeTypes .uchar) n)
  | .ushort, .vnat n => ordBytes (effLE p m) (natLeBytes (scalarWidth p m.nativeTypes .ushort) n)
  | .uint, .vnat n => ordBytes (effLE p m) (natLeBytes (scalarWidth p m.nativeTypes .uint) n)
  | .ulong, .vnat n => ordBytes (effLE p m) (natLeBytes (scalarWidth p m.nativeTypes .ulong) n)
  | .ulongLong, .vnat n =>
      ordBytes (effLE p m) (natLeBytes (scalarWidth p m.nativeTypes .ulongLong) n)
  | .usize, .vnat n => ordBytes (effLE p m) (natLeBytes (scalarWidth p m.nativeTypes .usize) n)
  | .ident m' sub, .vtuple vs => packFields p m' sub vs 0
  | _, _ => []
end

mutual
/-- `Compilation::unpack`: the input buffer is cut, in field order, into an
`alignment`-byte padding region and a `size - alignment`-byte payload region
per field; only the materialized fields' payload regions are decoded
(`Field::unpack_expr`) and assembled, in order, into the structured tuple. -/
def unpackFields (p : Platform) (m : Modifier) : Fields → List Nat → Nat → List Value
  | .nil, _, _ => []
  | .cons f mat rest, buf, off =>
      let al := if m.nativeTypes then alignCorr (alignOf p m.nativeTypes f) off else 0
      let psz := payloadSize p m mat f
      let tail := unpackFields p m rest buf (off + al + psz)
      if mat then unpackPayload p m f ((buf.drop (off + al)).take psz) :: tail
      else tail

/-- `Field::unpack_expr`: byte-order decode then two's-complement reading
for integers, bit reinterpretation for floats, an `(access[0] != 0)` test
for bools, a verbatim copy for byte arrays, and recursive `unpack` for a
nested reference. -/
def unpackPayload (p : Platform) (m : Modifier) : Fmt → List Nat → Value
  | .pad sz, _ => .vbytes (List.replicate sz 0)
  | .array _, bs => .vbytes bs
  | .bool, bs => .vbool (bs.headD 0 != 0)
  | .float, bs => .vfloat (leBytesNat (ordBytes (effLE p m) bs))
  | .double, bs => .vdouble (leBytesNat (ordBytes (effLE p m) bs))
  | .char, bs =>
      .vint (decodeInt (scalarWidth p m.nativeTypes .char) (leBytesNat (ordBytes (effLE p m) bs)))
  | .short, bs =>
      .vint (decodeInt (scalarWidth p m.nativeTypes .short) (leBytesNat (ordBytes (effLE p m) bs)))
  | .int, bs =>
      .vint (decodeInt (scalarWidth p m.nativeTypes .int) (leBytesNat (ordBytes (effLE p m) bs)))
  | .long, bs =>
      .vint (decodeInt (scalarWidth p m.nativeTypes .long) (leBytesNat (ordBytes (effLE p m) bs)))
  | .longLong, bs =>
      .vint (decodeInt (scalarWidth p m.nativeTypes .longLong)
        (leBytesNat (ordBytes (effLE p m) bs)))
  | .size, bs =>
      .vint (decodeInt (scalarWidth p m.nativeTypes .size) (leBytesNat (ordBytes (effLE p m) bs)))
  | .uchar, bs => .vnat (leBytesNat (ordBytes (effLE p m) bs))
  | .ushort, bs => .vnat (leBytesNat (ordBytes (effLE p m) bs))
  | .uint, bs => .vnat (leBytesNat (ordBytes (effLE p m) bs))
  | .ulong, bs => .vnat (leBytesNat (ordBytes (effLE p m) bs))
  | .ulongLong, bs => .vnat (leBytesNat (ordBytes (effLE p m) bs))
  | .usize, bs => .vnat (leBytesNat (ordBytes (effLE p m) bs))
  | .ident m' sub, bs => .vtuple (unpackFields p m' sub bs 0)
end

/-- Top-level pack of a structured value. -/
def pack (p : Platform) (m : Modifier) (fs : Fields) (vs : List Value) : List Nat :=
  packFields p m fs vs 0

/-- Top-level unpack of a buffer of length `SIZE`. -/
def unpack (p : Platform) (m : Modifier) (fs : Fields) (buf : List Nat) : List Value :=
  unpackFields p m fs buf 0

/-- The generated `unpack_slice`: slicing `inp[..SIZE]` panics (modelled as
`none`) when the slice is shorter than `SIZE`; otherwise exactly the first
`SIZE` bytes are copied out and unpacked. -/
def unpack_slice (p : Platform) (m : Modifier) (fs : Fields) (inp : List Nat) :
    Option (List Value) :=
  if inp.length < SIZE p m fs then none
  else some (unpack p m fs (inp.take (SIZE p m fs)))

mutual
/-- In-range check of one structured value against one field type: the shape
matches and integers / float bit patterns fit the mode-determined width, a
byte array has exactly the declared length with byte-sized elements, and a
nested tuple fits the referenced codec's field list.  Padding fields carry
no value. -/
def fitB (p : Platform) (native : Bool) : Fmt → Value → Bool
  | .bool, .vbool _ => true
  | .array sz, .vbytes bs => bs.length == sz && bs.all fun b => b < 256
  | .float, .vfloat bits => decide (bits < 2 ^ 32)
  | .double, .vdouble bits => decide (bits < 2 ^ 64)
  | .char, .vint n =>
      decide (-(2 : Int) ^ (8 * scalarWidth p native .char - 1) ≤ n) &&
        decide (n < (2 : Int) ^ (8 * scalarWidth p native .char - 1))
  | .short, .vint n =>
      decide (-(2 : Int) ^ (8 * scalarWidth p native .short - 1) ≤ n) &&
        decide (n < (2 : Int) ^ (8 * scalarWidth p native .short - 1))
  | .int, .vint n =>
      decide (-(2 : Int) ^ (8 * scalarWidth p native .int - 1) ≤ n) &&
        decide (n < (2 : Int) ^ (8 * scalarWidth p native .int - 1))
  | .long, .vint n =>
      decide (-(2 : Int) ^ (8 * scalarWidth p native .long - 1) ≤ n) &&
        decide (n < (2 : Int) ^ (8 * scalarWidth p native .long - 1))
  | .longLong, .vint n =>
      decide (-(2 : Int) ^ (8 * scalarWidth p native .longLong - 1) ≤ n) &&
        decide (n < (2 : Int) ^ (8 * scalarWidth p native .longLong - 1))
  | .size, .vint n =>
      decide (-(2 : Int) ^ (8 * scalarWidth p native .size - 1) ≤ n) &&
        decide (n < (2 : Int) ^ (8 * scalarWidth p native .size - 1))
  | .uchar, .vnat n => decide (n < 2 ^ (8 * scalarWidth p native .uchar))
  | .ushort, .vnat n => decide (n < 2 ^ (8 * scalarWidth p native .ushort))
  | .uint, .vnat n => decide (n < 2 ^ (8 * scalarWidth p native .uint))
  | .ulong, .vnat n => decide (n < 2 ^ (8 * scalarWidth p native .ulong))
  | .ulongLong, .vnat n => decide (n < 2 ^ (8 * scalarWidth p native .ulongLong))
  | .usize, .vnat n => decide (n < 2 ^ (8 * scalarWidth p native .usize))
  | .ident m' sub, .vtuple vs => fitsFieldsB p m' sub vs
  | _, _ => false

/-- In-range check of a whole structured value list against a field list:
each materialized field consumes exactly one matching value, in order. -/
def fitsFieldsB (p : Platform) (m : Modifier) : Fields → List Value → Bool
  | .nil, vs => vs.isEmpty
  | .cons f mat rest, vs =>
      if mat then
        match vs with
        | [] => false
        | v :: rvs => fitB p m.nativeTypes f v && fitsFieldsB p m rest rvs
      else fitsFieldsB p m rest vs
end

mutual
/-- Structural well-formedness every compiled field list satisfies: padding
fields are never materialized (in `Compilation::new`, `materialize` is
`false` whenever the format is `Pad`), recursively so in nested codecs. -/
def wfFmtB : Fmt → Bool
  | .ident _ sub => wfFieldsB sub
  | _ => true

def wfFieldsB : Fields → Bool
  | .nil => true
  | .cons f mat rest =>
      (match f with
        | .pad _ => !mat
        | _ => true) && wfFmtB f && wfFieldsB rest
end

/-- `parser.rs` `FormatChar`.  As in the field model, a nested reference
carries the referenced compilation (name resolution happens through the
trait system in the source). -/
inductive FormatChar where
  | array
  | bool
  | char
  | double
  | float
  | ident (m : Modifier) (sub : Fields)
  | int
  | long
  | longLong
  | pad
  | short
  | size
  | uchar
  | uint
  | ulong
  | ulongLong
  | ushort
  | usize

/-- `parser.rs` `FormatCode`: an optional repeat count and a character. -/
structure FormatCode where
  rpt : Option Nat
  chr : FormatChar

/-- The format-character table of `parser.rs` `parse` (scalar, padding and
array characters; nested references are written in backquotes and resolved
separately). -/
def formatCharOf : Char → Option FormatChar
  | '?' => some .bool
  | 'B' => some .uchar
  | 'H' => some .ushort
  | 'I' => some .uint
  | 'L' => some .ulong
  | 'N' => some .usize
  | 'Q' => some .ulongLong
  | 'b' => some .char
  | 'd' => some .double
  | 'f' => some .float
  | 'h' => some .short
  | 'i' => some .int
  | 'l' => some .long
  | 'n' => some .size
  | 'q' => some .longLong
  | 's' => some .array
  | 'x' => some .pad
  | _ => none

/-- `Format::from(FormatCode)`: for the array and padding kinds the repeat
count (defaulting to 1) becomes the declared byte length. -/
def fmtOfChar (r : Nat) : FormatChar → Fmt
  | .array => .array r
  | .bool => .bool
  | .char => .char
  | .double => .double
  | .float => .float
  | .ident m sub => .ident m sub
  | .int => .int
  | .long => .long
  | .longLong => .longLong
  | .pad => .pad r
  | .short => .short
  | .size => .size
  | .uchar => .uchar
  | .uint => .uint
  | .ulong => .ulong
  | .ulongLong => .ulongLong
  | .ushort => .ushort
  | .usize => .usize

/-- The per-code expansion step of `Compilation::new`: with
`r = repeat.unwrap_or(1)`, a field is non-materialized iff it is padding or
`r = 0`; array and padding codes expand into exactly one field, every other
code into `max 1 r` identical fields. -/
def expandCode (fc : FormatCode) : List (Fmt × Bool) :=
  let r := fc.rpt.getD 1
  let fmt := fmtOfChar r fc.chr
  let mat : Bool :=
    match fmt, r with
    | .pad _, _ => false
    | _, 0 => false
    | _, _ => true
  match fmt with
  | .array sz => [(.array sz, mat)]
  | .pad sz => [(.pad sz, mat)]
  | f => List.replicate (max 1 r) (f, mat)

def Fields.ofList : List (Fmt × Bool) → Fields
  | [] => .nil
  | (f, mat) :: rest => .cons f mat (Fields.ofList rest)

/-- The full expansion loop of `Compilation::new`. -/
def expand (codes : List FormatCode) : Fields :=
  Fields.ofList (codes.map expandCode).flatten

/-- True of every non-padding field kind. -/
def notPad : Fmt → Prop
  | .pad _ => False
  | _ => True

/-- Concrete fixture: the compiled fields of a format like "<i3s?". -/
def wFields1 : Fields := expand [⟨none, .int⟩, ⟨some 3, .array⟩, ⟨none, .bool⟩]

/-- Concrete fixture: a matching in-range structured value. -/
def wVals1 : List Value := [.vint 1, .vbytes [10, 20, 30], .vbool true]

/-- Concrete fixture: the compiled fields of ">HH". -/
def wFields2 : Fields := expand [⟨none, .ushort⟩, ⟨none, .ushort⟩]

/-- Concrete fixture: the compiled fields of "b0q". -/
def f06 : Fields := expand [⟨none, .char⟩, ⟨some 0, .longLong⟩]

/-- Concrete fixture: the compiled fields of "B2xB". -/
def fC10 : Fields := expand [⟨none, .uchar⟩, ⟨some 2, .pad⟩, ⟨none, .uchar⟩]

theorem natLeBytes_length (w v : Nat) : (natLeBytes w v).length = w := by
  induction w generalizing v with
  | zero => rfl
  | succ k ih => simp [natLeBytes, ih]

theorem natLeBytes_lt (w v : Nat) : ∀ b ∈ natLeBytes w v, b < 256 := by
  induction w generalizing v with
  | zero => simp [natLeBytes]
  | succ k ih =>
    intro b hb
    simp only [natLeBytes, List.mem_cons] at hb
    rcases hb with h | h
    · omega
    · exact ih _ b h

theorem leBytesNat_natLeBytes (w v : Nat) :
    leBytesNat (natLeBytes w v) = v % 256 ^ w := by
  induction w generalizing v with
  | zero => simp [natLeBytes, leBytesNat, Nat.mod_one]
  | succ k ih =>
    have hmm : v % 256 ^ (k + 1) % 256 = v % 256 := by
      have : (256 : Nat) ∣ 256 ^ (k + 1) := dvd_pow_self 256 (Nat.succ_ne_zero k)
      exact Nat.mod_mod_of_dvd v this
    have hdiv : v % 256 ^ (k + 1) / 256 = v / 256 % 256 ^ k := by
      rw [pow_succ, mul_comm, Nat.mod_mul_right_div_self]
    have hsplit := Nat.div_add_mod (v % 256 ^ (k + 1)) 256
    simp only [natLeBytes, leBytesNat, ih]
    omega

theorem leBytesNat_lt (bs : List Nat) (h : ∀ b ∈ bs, b < 256) :
    leBytesNat bs < 256 ^ bs.length := by
  induction bs with
  | nil => simp [leBytesNat]
  | cons b rest ih =>
    have hb : b < 256 := h b (List.mem_cons_self b rest)
    have hr : leBytesNat rest < 256 ^ rest.length :=
      ih fun x hx => h x (List.mem_cons_of_mem b hx)
    simp only [leBytesNat, List.length_cons, pow_succ]
    calc b + 256 * leBytesNat rest
        < 256 + 256 * leBytesNat rest := by omega
      _ = 256 * (leBytesNat rest + 1) := by ring
      _ ≤ 256 * 256 ^ rest.length := by
          exact Nat.mul_le_mul_left 256 (by omega)
      _ = 256 ^ rest.length * 256 := by ring

theorem natLeBytes_leBytesNat (bs : List Nat) (h : ∀ b ∈ bs, b < 256) :
    natLeBytes bs.length (leBytesNat bs) = bs := by
  induction bs with
  | nil => rfl
  | cons b rest ih =>
    have hb : b < 256 := h b (List.mem_cons_self b rest)
    have hmod : (b + 256 * leBytesNat rest) % 256 = b := by
      omega
    have hdiv : (b + 256 * leBytesNat rest) / 256 = leBytesNat rest := by
      omega
    simp only [List.length_cons, natLeBytes, leBytesNat, hmod, hdiv]
    rw [ih fun x hx => h x (List.mem_cons_of_mem b hx)]

theorem pow256_eq (w : Nat) : (256 : Nat) ^ w = 2 ^ (8 * w) := by
  rw [show (256 : Nat) = 2 ^ 8 from rfl, ← pow_mul]

/-- Unsigned scalar roundtrip: packing then unpacking an in-range `Nat`
recovers it. -/
theorem leBytesNat_natLeBytes_of_lt (w v : Nat) (h : v < 2 ^ (8 * w)) :
    leBytesNat (natLeBytes w v) = v := by
  rw [leBytesNat_natLeBytes, pow256_eq, Nat.mod_eq_of_lt h]

/-- Signed scalar roundtrip: two's-complement encode/decode of an in-range
`Int` recovers it. -/
theorem decodeInt_intLeBytes (w : Nat) (v : Int) (hw : 1 ≤ w)
    (hlo : -(2 : Int) ^ (8 * w - 1) ≤ v) (hhi : v < (2 : Int) ^ (8 * w - 1)) :
    decodeInt w (leBytesNat (intLeBytes w v)) = v := by
  have hsplit : 8 * w = (8 * w - 1) + 1 := by omega
  have hM2 : (2 : Int) ^ (8 * w) = 2 ^ (8 * w - 1) * 2 := by
    conv_lhs => rw [hsplit]
    rw [pow_succ]
  rcases le_or_lt 0 v with hpos | hneg
  · have hvM : v < (2 : Int) ^ (8 * w) := by
      have : (2 : Int) ^ (8 * w - 1) ≤ 2 ^ (8 * w) := by
        apply pow_le_pow_right₀ (by omega) (by omega)
      omega
    have hmod : v % ((2 : Int) ^ (8 * w)) = v := Int.emod_eq_of_lt hpos hvM
    have hcast : ((2 ^ (8 * w) : Nat) : Int) = (2 : Int) ^ (8 * w) := by
      push_cast; ring
    have hnat : ((v % ((2 : Int) ^ (8 * w))).toNat : Int) = v := by
      rw [hmod]; exact Int.toNat_of_nonneg hpos
    have hlt : (v % ((2 : Int) ^ (8 * w))).toNat < 2 ^ (8 * w) := by
      rw [hmod]; omega
    rw [intLeBytes, leBytesNat_natLeBytes_of_lt _ _ hlt]
    have hlt1 : (v % ((2 : Int) ^ (8 * w))).toNat < 2 ^ (8 * w - 1) := by
      have hcast1 : ((2 ^ (8 * w - 1) : Nat) : Int) = (2 : Int) ^ (8 * w - 1) := by
        push_cast; ring
      omega
    rw [decodeInt, if_pos hlt1]
    exact hnat
  · have hM : (0 : Int) < 2 ^ (8 * w) := by positivity
    have hvM : v + 2 ^ (8 * w) < 2 ^ (8 * w) := by omega
    have hv0 : 0 ≤ v + 2 ^ (8 * w) := by omega
    have hmod : v % ((2 : Int) ^ (8 * w)) = v + 2 ^ (8 * w) := by
      have h1 : (v + (2 : Int) ^ (8 * w) * 1) % ((2 : Int) ^ (8 * w)) =
          v % (2 : Int) ^ (8 * w) :=
        @Int.add_mul_emod_self_left v ((2 : Int) ^ (8 * w)) 1
      rw [mul_one] at h1
      rw [← h1]
      exact Int.emod_eq_of_lt hv0 hvM
    have hge : (2 : Int) ^ (8 * w - 1) ≤ v + 2 ^ (8 * w) := by omega
    have hlt : (v % ((2 : Int) ^ (8 * w))).toNat < 2 ^ (8 * w) := by
      have hcast : ((2 ^ (8 * w) : Nat) : Int) = (2 : Int) ^ (8 * w) := by
        push_cast; ring
      omega
    rw [intLeBytes, leBytesNat_natLeBytes_of_lt _ _ hlt]
    have hnotlt : ¬ (v % ((2 : Int) ^ (8 * w))).toNat < 2 ^ (8 * w - 1) := by
      have hcast : ((2 ^ (8 * w - 1) : Nat) : Int) = (2 : Int) ^ (8 * w - 1) := by
        push_cast; ring
      omega
    rw [decodeInt, if_neg hnotlt]
    have hcast2 : (((v % ((2 : Int) ^ (8 * w))).toNat : Int)) = v + 2 ^ (8 * w) := by
      rw [hmod]; exact Int.toNat_of_nonneg hv0
    omega

theorem ordBytes_ordBytes (le : Bool) (bs : List Nat) :
    ordBytes le (ordBytes le bs) = bs := by
  cases le <;> simp [ordBytes]

theorem ordBytes_length (le : Bool) (bs : List Nat) :
    (ordBytes le bs).length = bs.length := by
  cases le <;> simp [ordBytes]

theorem ordBytes_mem (le : Bool) (bs : List Nat) (b : Nat) :
    b ∈ ordBytes le bs ↔ b ∈ bs := by
  cases le <;> simp [ordBytes]

theorem alignCorr_zero (a : Nat) : alignCorr a 0 = 0 := by
  simp [alignCorr]

/-- The computed correction is the least one making the offset divisible by
the alignment. -/
theorem alignCorr_spec (a off : Nat) (ha : 1 ≤ a) :
    (off + alignCorr a off) % a = 0 ∧ ∀ c < alignCorr a off, (off + c) % a ≠ 0 := by
  unfold alignCorr
  by_cases h0 : off % a = 0
  · simp [h0]
  · have hra : off % a < a := Nat.mod_lt off (by omega)
    have hle2 : off % a ≤ off := Nat.mod_le off a
    rw [if_neg h0]
    constructor
    · have : off + (a - off % a) = (off - off % a) + a := by omega
      rw [this]
      have hd : a ∣ off - off % a := by
        have := Nat.div_add_mod off a
        exact ⟨off / a, by omega⟩
      rcases hd with ⟨k, hk⟩
      simp [hk, Nat.add_mul_mod_self_left, Nat.mul_mod_right]
    · intro c hc
      have hlt : off % a + c < a := by omega
      have : (off + c) % a = off % a + c := by
        conv_lhs => rw [← Nat.div_add_mod off a]
        rw [Nat.add_assoc, Nat.mul_add_mod]
        exact Nat.mod_eq_of_lt hlt
      omega

/-- Every scalar (non-array, non-padding, non-nested) field type has a
positive byte width on a well-formed platform. -/
theorem scalarWidth_pos (p : Platform) (hp : p.WF) (native : Bool) (f : Fmt)
    (hf : (match f with | .array _ => False | .pad _ => False | .ident _ _ => False | _ => True)) :
    1 ≤ scalarWidth p native f := by
  obtain ⟨h1, h2, h3, h4, h5, -⟩ := hp
  cases f <;> simp_all [scalarWidth] <;> cases native <;> simp <;> omega

theorem alignMax_pos (p : Platform) (m : Modifier) : ∀ fs : Fields, 1 ≤ alignMax p m fs
  | .nil => by simp [alignMax]
  | .cons f mat rest => by
      have := alignMax_pos p m rest
      cases mat <;> simp [alignMax] <;> omega

/-- Every resolved field type has a positive alignment on a well-formed
platform. -/
theorem alignOf_pos (p : Platform) (hp : p.WF) (native : Bool) (f : Fmt) :
    1 ≤ alignOf p native f := by
  obtain ⟨-, -, -, -, -, h6, h7, h8, h9, h10, h11, h12, h13, h14, h15⟩ := hp
  cases f <;> cases native <;> simp [alignOf] <;>
    first
      | omega
      | exact alignMax_pos p _ _

/-- The number of unpacked values always equals the number of materialized
fields, for every input buffer. -/
theorem unpackFields_length (p : Platform) (m : Modifier) :
    ∀ (fs : Fields) (buf : List Nat) (off : Nat),
      (unpackFields p m fs buf off).length = fs.matCount
  | .nil, _, _ => rfl
  | .cons f mat rest, buf, off => by
      cases mat <;> (simp [unpackFields, Fields.matCount,
        unpackFields_length p m rest buf]; try omega)

theorem intLeBytes_length (w : Nat) (v : Int) : (intLeBytes w v).length = w := by
  simp [intLeBytes, natLeBytes_length]

set_option maxHeartbeats 3000000 in
mutual
/-- An in-range payload packs to exactly `payloadSize` bytes. -/
theorem packPayload_length (p : Platform) (m : Modifier) (f : Fmt) (v : Value)
    (h : fitB p m.nativeTypes f v = true) :
    (packPayload p m f v).length = payloadSize p m true f := by
  cases f <;> cases v <;>
    simp only [fitB, Bool.false_eq_true, Bool.and_eq_true, beq_iff_eq,
      decide_eq_true_eq] at h
  all_goals
    simp [packPayload, payloadSize, ordBytes_length, natLeBytes_length,
      intLeBytes_length, scalarWidth]
  case array.vbytes sz bs => exact h.1
  case ident.vtuple m2 sub vs => exact packFields_length p m2 sub vs 0 h

/-- An in-range value list packs to exactly `sizeFrom` bytes. -/
theorem packFields_length (p : Platform) (m : Modifier) (fs : Fields) (vs : List Value)
    (off : Nat) (h : fitsFieldsB p m fs vs = true) :
    (packFields p m fs vs off).length = sizeFrom p m fs off := by
  cases fs with
  | nil => simp [packFields, sizeFrom]
  | cons f mat rest =>
      cases mat with
      | false =>
          simp only [fitsFieldsB, Bool.false_eq_true, if_false] at h
          have h2 := fun o => packFields_length p m rest vs o h
          simp [packFields, sizeFrom, h2]
          try omega
      | true =>
          cases vs with
          | nil => simp [fitsFieldsB] at h
          | cons v rvs =>
              simp only [fitsFieldsB, if_true, Bool.and_eq_true] at h
              have h1 := packPayload_length p m f v h.1
              have h2 := fun o => packFields_length p m rest rvs o h.2
              simp [packFields, sizeFrom, h1, h2]
              try omega
end

/-- Byte-order conversion followed by its inverse and two's-complement
decode recovers an in-range signed value. -/
theorem signed_rt (w : Nat) (le : Bool) (n : Int) (hw : 1 ≤ w)
    (hlo : -(2 : Int) ^ (8 * w - 1) ≤ n) (hhi : n < (2 : Int) ^ (8 * w - 1)) :
    decodeInt w (leBytesNat (ordBytes le (ordBytes le (intLeBytes w n)))) = n := by
  rw [ordBytes_ordBytes]
  exact decodeInt_intLeBytes w n hw hlo hhi

/-- Byte-order conversion followed by its inverse recovers an in-range
unsigned value. -/
theorem unsigned_rt (w : Nat) (le : Bool) (n : Nat) (hn : n < 2 ^ (8 * w)) :
    leBytesNat (ordBytes le (ordBytes le (natLeBytes w n))) = n := by
  rw [ordBytes_ordBytes]
  exact leBytesNat_natLeBytes_of_lt w n hn

theorem append3_left (pre a b c : List Nat) :
    pre ++ (a ++ b ++ c) = (pre ++ a) ++ (b ++ c) := by
  simp [List.append_assoc]

theorem append3_left2 (pre a b c : List Nat) :
    pre ++ (a ++ b ++ c) = (pre ++ a ++ b) ++ c := by
  simp [List.append_assoc]

set_option maxHeartbeats 3000000 in
mutual
/-- Packing an in-range payload and decoding it back recovers the value. -/
theorem unpack_packPayload (p : Platform) (hp : p.WF) (m : Modifier) (f : Fmt) (v : Value)
    (h : fitB p m.nativeTypes f v = true) :
    unpackPayload p m f (packPayload p m f v) = v := by
  cases f <;> cases v <;>
    simp only [fitB, Bool.false_eq_true, Bool.and_eq_true, beq_iff_eq,
      decide_eq_true_eq] at h
  case bool.vbool b => cases b <;> simp [packPayload, unpackPayload]
  case array.vbytes sz bs => simp [packPayload, unpackPayload]
  case float.vfloat bits =>
      simp only [packPayload, unpackPayload]
      rw [unsigned_rt 4 (effLE p m) bits h]
  case double.vdouble bits =>
      simp only [packPayload, unpackPayload]
      rw [unsigned_rt 8 (effLE p m) bits h]
  case char.vint n =>
      simp only [packPayload, unpackPayload]
      rw [signed_rt _ _ _ (scalarWidth_pos p hp m.nativeTypes .char trivial) h.1 h.2]
  case short.vint n =>
      simp only [packPayload, unpackPayload]
      rw [signed_rt _ _ _ (scalarWidth_pos p hp m.nativeTypes .short trivial) h.1 h.2]
  case int.vint n =>
      simp only [packPayload, unpackPayload]
      rw [signed_rt _ _ _ (scalarWidth_pos p hp m.nativeTypes .int trivial) h.1 h.2]
  case long.vint n =>
      simp only [packPayload, unpackPayload]
      rw [signed_rt _ _ _ (scalarWidth_pos p hp m.nativeTypes .long trivial) h.1 h.2]
  case longLong.vint n =>
      simp only [packPayload, unpackPayload]
      rw [signed_rt _ _ _ (scalarWidth_pos p hp m.nativeTypes .longLong trivial) h.1 h.2]
  case size.vint n =>
      simp only [packPayload, unpackPayload]
      rw [signed_rt _ _ _ (scalarWidth_pos p hp m.nativeTypes .size trivial) h.1 h.2]
  case uchar.vnat n =>
      simp only [packPayload, unpackPayload]
      rw [unsigned_rt _ _ _ h]
  case ushort.vnat n =>
      simp only [packPayload, unpackPayload]
      rw [unsigned_rt _ _ _ h]
  case uint.vnat n =>
      simp only [packPayload, unpackPayload]
      rw [unsigned_rt _ _ _ h]
  case ulong.vnat n =>
      simp only [packPayload, unpackPayload]
      rw [unsigned_rt _ _ _ h]
  case ulongLong.vnat n =>
      simp only [packPayload, unpackPayload]
      rw [unsigned_rt _ _ _ h]
  case usize.vnat n =>
      simp only [packPayload, unpackPayload]
      rw [unsigned_rt _ _ _ h]
  case ident.vtuple m2 sub vs =>
      simp only [packPayload, unpackPayload]
      exact congrArg Value.vtuple (unpack_packFields p hp m2 sub vs 0 [] rfl h)

/-- Packing an in-range value list at offset `off` into a buffer whose first
`off` bytes are arbitrary, then unpacking from offset `off`, recovers the
values. -/
theorem unpack_packFields (p : Platform) (hp : p.WF) (m : Modifier) (fs : Fields)
    (vs : List Value) (off : Nat) (pre : List Nat) (hpre : pre.length = off)
    (h : fitsFieldsB p m fs vs = true) :
    unpackFields p m fs (pre ++ packFields p m fs vs off) off = vs := by
  cases fs with
  | nil =>
      simp only [fitsFieldsB, List.isEmpty_iff] at h
      simp [unpackFields, h]
  | cons f mat rest =>
      cases mat with
      | false =>
          simp only [fitsFieldsB, Bool.false_eq_true, if_false] at h
          simp only [unpackFields, packFields, Bool.false_eq_true, if_false]
          rw [append3_left2]
          exact unpack_packFields p hp m rest vs _ _ (by simp [hpre]; try omega) h
      | true =>
          cases vs with
          | nil => simp [fitsFieldsB] at h
          | cons v rvs =>
              simp only [fitsFieldsB, if_true, Bool.and_eq_true] at h
              obtain ⟨h1, h2⟩ := h
              have hw := packPayload_length p m f v h1
              simp only [unpackFields, packFields, if_true]
              set AL := if m.nativeTypes = true then alignCorr (alignOf p m.nativeTypes f) off
                else 0 with hALdef
              set PSZ := payloadSize p m true f with hPSZdef
              have hslice :
                  ((pre ++ (List.replicate AL (0 : Nat) ++ packPayload p m f v ++
                      packFields p m rest rvs (off + AL + PSZ))).drop (off + AL)).take PSZ =
                    packPayload p m f v := by
                rw [append3_left]
                have h4 : off + AL = (pre ++ List.replicate AL (0 : Nat)).length := by
                  simp [hpre]
                rw [h4, List.drop_left, ← hw, List.take_left]
              rw [hslice, unpack_packPayload p hp m f v h1, append3_left2,
                unpack_packFields p hp m rest rvs (off + AL + PSZ) _ (by simp [hpre, hw]; try omega) h2]
end

theorem resolveAux_head_off (p : Platform) (m : Modifier) :
    ∀ (fs : Fields) (off : Nat) (r : RField),
      (resolveAux p m fs off).head? = some r → r.offset = off
  | .nil, _, r => by simp [resolveAux]
  | .cons f mat rest, off, r => by
      simp only [resolveAux, List.head?_cons, Option.some.injEq]
      intro h
      rw [← h]

/-- Adjacent resolved fields satisfy the offset recurrence. -/
theorem resolveAux_chain (p : Platform) (m : Modifier) :
    ∀ (fs : Fields) (off : Nat),
      List.Chain' (fun a b => b.offset = a.offset + a.size) (resolveAux p m fs off)
  | .nil, _ => by simp [resolveAux]
  | .cons f mat rest, off => by
      simp only [resolveAux]
      refine List.chain'_cons'.mpr ⟨?_, resolveAux_chain p m rest _⟩
      intro b hb
      have := resolveAux_head_off p m rest _ b hb
      simp [this]
      omega

/-- Every resolved field's size and alignment follow `Compilation::fields`:
size is alignment plus payload, and alignment is the `align<T>` correction
in native mode and 0 otherwise. -/
theorem resolveAux_mem (p : Platform) (m : Modifier) :
    ∀ (fs : Fields) (off : Nat) (r : RField), r ∈ resolveAux p m fs off →
      r.size = r.alignment + payloadSize p m r.materialize r.fmt ∧
      r.alignment =
        (if m.nativeTypes then alignCorr (alignOf p m.nativeTypes r.fmt) r.offset else 0)
  | .nil, _, r => by simp [resolveAux]
  | .cons f mat rest, off, r => by
      simp only [resolveAux, List.mem_cons]
      rintro (rfl | h)
      · simp
      · exact resolveAux_mem p m rest _ r h

theorem resolveAux_eq_nil (p : Platform) (m : Modifier) :
    ∀ (fs : Fields) (off : Nat), resolveAux p m fs off = [] → fs = Fields.nil
  | .nil, _, _ => rfl
  | .cons f mat rest, off, h => by simp [resolveAux] at h

theorem resolveAux_last_sum (p : Platform) (m : Modifier) :
    ∀ (fs : Fields) (off : Nat) (r : RField),
      (resolveAux p m fs off).getLast? = some r →
      r.offset + r.size = off + sizeFrom p m fs off
  | .nil, _, r => by simp [resolveAux]
  | .cons f mat rest, off, r => by
      intro h
      simp only [resolveAux] at h
      simp only [sizeFrom]
      cases hrest : resolveAux p m rest
          (off + (if m.nativeTypes then alignCorr (alignOf p m.nativeTypes f) off else 0) +
            payloadSize p m mat f) with
      | nil =>
          have hrnil : rest = Fields.nil := resolveAux_eq_nil p m rest _ hrest
          subst hrnil
          rw [hrest] at h
          simp only [List.getLast?_singleton, Option.some.injEq] at h
          subst h
          simp [sizeFrom]
      | cons r2 l2 =>
          rw [hrest, List.getLast?_cons_cons] at h
          have hrec := resolveAux_last_sum p m rest
            (off + (if m.nativeTypes then alignCorr (alignOf p m.nativeTypes f) off else 0) +
              payloadSize p m mat f) r (by rw [hrest]; exact h)
          omega

theorem SIZE_eq_sizeFrom (p : Platform) (m : Modifier) (fs : Fields) :
    SIZE p m fs = sizeFrom p m fs 0 := by
  cases fs with
  | nil => simp [SIZE, resolve, resolveAux, sizeFrom]
  | cons f mat rest =>
      have hne : resolve p m (.cons f mat rest) ≠ [] := by simp [resolve, resolveAux]
      cases hl : (resolve p m (.cons f mat rest)).getLast? with
      | none =>
          exact absurd (List.getLast?_eq_none_iff.mp hl) hne
      | some r =>
          have hsum := resolveAux_last_sum p m (.cons f mat rest) 0 r hl
          unfold SIZE
          rw [hl]
          simpa using hsum

/-- Whatever the offsets, decode looks only at the payload regions of the
materialized fields: buffers agreeing there decode identically. -/
theorem unpackFields_agree (p : Platform) (m : Modifier) :
    ∀ (fs : Fields) (off : Nat) (buf1 buf2 : List Nat),
      (∀ r ∈ resolveAux p m fs off, r.materialize = true →
        (buf1.drop (r.offset + r.alignment)).take (r.size - r.alignment) =
        (buf2.drop (r.offset + r.alignment)).take (r.size - r.alignment)) →
      unpackFields p m fs buf1 off = unpackFields p m fs buf2 off
  | .nil, _, _, _, _ => rfl
  | .cons f mat rest, off, buf1, buf2, hagree => by
      have htail := unpackFields_agree p m rest
        (off + (if m.nativeTypes then alignCorr (alignOf p m.nativeTypes f) off else 0) +
          payloadSize p m mat f) buf1 buf2
        (fun r hr hm => hagree r (by simp only [resolveAux, List.mem_cons]; exact Or.inr hr) hm)
      cases mat with
      | false =>
          simp only [unpackFields, Bool.false_eq_true, if_false]
          exact htail
      | true =>
          have hhead := hagree ⟨f, true, off,
            (if m.nativeTypes then alignCorr (alignOf p m.nativeTypes f) off else 0),
            (if m.nativeTypes then alignCorr (alignOf p m.nativeTypes f) off else 0) +
              payloadSize p m true f⟩
            (by simp [resolveAux]) rfl
          simp only [Nat.add_sub_cancel_left] at hhead
          simp only [unpackFields, if_true]
          rw [hhead, htail]

/-- Two's-complement reading of any `w`-byte recomposition lands in the
signed range. -/
theorem decodeInt_range (w n : Nat) (hw : 1 ≤ w) (hn : n < 2 ^ (8 * w)) :
    -(2 : Int) ^ (8 * w - 1) ≤ decodeInt w n ∧ decodeInt w n < (2 : Int) ^ (8 * w - 1) := by
  have hsplit : 8 * w = (8 * w - 1) + 1 := by omega
  have hM2 : (2 : Int) ^ (8 * w) = 2 ^ (8 * w - 1) * 2 := by
    conv_lhs => rw [hsplit]
    rw [pow_succ]
  have hcast : ((2 ^ (8 * w) : Nat) : Int) = (2 : Int) ^ (8 * w) := by
    push_cast; ring
  have hcast1 : ((2 ^ (8 * w - 1) : Nat) : Int) = (2 : Int) ^ (8 * w - 1) := by
    push_cast; ring
  have hpos : (0 : Int) < 2 ^ (8 * w - 1) := by positivity
  unfold decodeInt
  by_cases hlt : n < 2 ^ (8 * w - 1)
  · rw [if_pos hlt]
    omega
  · rw [if_neg hlt]
    omega

set_option maxHeartbeats 3000000 in
mutual
/-- Decoding any byte-sized payload of the right length yields an in-range
value: every bit pattern is valid for its target type. -/
theorem unpackPayload_fit (p : Platform) (hp : p.WF) (m : Modifier) (f : Fmt) (bs : List Nat)
    (hwf : wfFmtB f = true)
    (hnp : notPad f)
    (hb : ∀ b ∈ bs, b < 256)
    (hlen : bs.length = payloadSize p m true f) :
    fitB p m.nativeTypes f (unpackPayload p m f bs) = true := by
  have hob : ∀ b ∈ ordBytes (effLE p m) bs, b < 256 :=
    fun b hbm => hb b ((ordBytes_mem _ _ _).mp hbm)
  have hobn := leBytesNat_lt _ hob
  rw [ordBytes_length] at hobn
  cases f
  case pad sz => exact hnp.elim
  case bool => simp [unpackPayload, fitB]
  case array sz =>
      simp only [payloadSize, scalarWidth] at hlen
      simp only [unpackPayload, fitB, Bool.and_eq_true, beq_iff_eq, List.all_eq_true,
        decide_eq_true_eq]
      exact ⟨by simpa using hlen, fun b hbm => hb b hbm⟩
  case float =>
      simp only [payloadSize, scalarWidth, if_true] at hlen
      rw [hlen] at hobn
      simp only [unpackPayload, fitB, decide_eq_true_eq]
      have h4 : (256 : Nat) ^ 4 = 2 ^ 32 := by norm_num
      omega
  case double =>
      simp only [payloadSize, scalarWidth, if_true] at hlen
      rw [hlen] at hobn
      simp only [unpackPayload, fitB, decide_eq_true_eq]
      have h8 : (256 : Nat) ^ 8 = 2 ^ 64 := by norm_num
      omega
  case ident m2 sub =>
      simp only [wfFmtB] at hwf
      simp only [payloadSize, if_true] at hlen
      simp only [unpackPayload, fitB]
      exact unpackFields_fit p hp m2 sub bs 0 hwf hb (by omega)
  all_goals
    simp only [payloadSize, if_true] at hlen
    rw [hlen, pow256_eq] at hobn
    simp only [unpackPayload, fitB, Bool.and_eq_true, decide_eq_true_eq]
  case char =>
      exact decodeInt_range _ _ (scalarWidth_pos p hp m.nativeTypes .char trivial) hobn
  case short =>
      exact decodeInt_range _ _ (scalarWidth_pos p hp m.nativeTypes .short trivial) hobn
  case int =>
      exact decodeInt_range _ _ (scalarWidth_pos p hp m.nativeTypes .int trivial) hobn
  case long =>
      exact decodeInt_range _ _ (scalarWidth_pos p hp m.nativeTypes .long trivial) hobn
  case longLong =>
      exact decodeInt_range _ _ (scalarWidth_pos p hp m.nativeTypes .longLong trivial) hobn
  case size =>
      exact decodeInt_range _ _ (scalarWidth_pos p hp m.nativeTypes .size trivial) hobn
  case uchar => exact hobn
  case ushort => exact hobn
  case uint => exact hobn
  case ulong => exact hobn
  case ulongLong => exact hobn
  case usize => exact hobn

/-- Decoding any large-enough byte buffer produces a structured value list
that is in-range for the compiled field list. -/
theorem unpackFields_fit (p : Platform) (hp : p.WF) (m : Modifier) (fs : Fields)
    (buf : List Nat) (off : Nat) (hwf : wfFieldsB fs = true)
    (hb : ∀ b ∈ buf, b < 256)
    (hlen : off + sizeFrom p m fs off ≤ buf.length) :
    fitsFieldsB p m fs (unpackFields p m fs buf off) = true := by
  cases fs with
  | nil => simp [unpackFields, fitsFieldsB]
  | cons f mat rest =>
      simp only [wfFieldsB, Bool.and_eq_true] at hwf
      obtain ⟨⟨hpad, hwff⟩, hwfr⟩ := hwf
      simp only [sizeFrom] at hlen
      cases mat with
      | false =>
          simp only [unpackFields, fitsFieldsB, Bool.false_eq_true, if_false]
          exact unpackFields_fit p hp m rest buf _ hwfr hb (by omega)
      | true =>
          have hnp : notPad f := by
            cases f <;> trivial
          simp only [unpackFields, fitsFieldsB, if_true, Bool.and_eq_true]
          constructor
          · apply unpackPayload_fit p hp m f _ hwff hnp
            · exact fun b hbm =>
                hb b (List.mem_of_mem_drop (List.mem_of_mem_take hbm))
            · simp only [List.length_take, List.length_drop]
              omega
          · exact unpackFields_fit p hp m rest buf _ hwfr hb (by omega)
end

/-- C1: For every platform, modifier and compiled field list, and every
in-range structured value whose element count and types match the record,
unpacking the packed bytes recovers exactly the original value. -/
theorem C1_roundtrip (p : Platform) (m : Modifier) (fs : Fields) (vs : List Value)
    (hp : p.WF) (h : fitsFieldsB p m fs vs = true) :
    unpack p m fs (pack p m fs vs) = vs := by
  simpa [pack, unpack] using unpack_packFields p hp m fs vs 0 [] rfl h

theorem C1_roundtrip_witness :
    Platform.WF x8664 ∧ fitsFieldsB x8664 .littleEndian wFields1 wVals1 = true ∧
    unpack x8664 .littleEndian wFields1 (pack x8664 .littleEndian wFields1 wVals1) = wVals1 :=
  ⟨by decide, by decide,
    C1_roundtrip x8664 .littleEndian wFields1 wVals1 (by decide) (by decide)⟩

/-- C2: pack of a matching value always yields exactly `SIZE` bytes, and
unpack of any `SIZE`-byte buffer is total: it yields one value per
materialized field, every bit pattern decodes to an in-range value, any
non-zero boolean byte decodes to `true`, and float/double payloads are
reproduced bit-for-bit (including NaN / Inf patterns). -/
theorem C2_totality (p : Platform) (m : Modifier) (fs : Fields) (vs : List Value)
    (buf : List Nat) (hp : p.WF) (hwf : wfFieldsB fs = true)
    (hv : fitsFieldsB p m fs vs = true)
    (hlen : buf.length = SIZE p m fs) (hbytes : ∀ b ∈ buf, b < 256) :
    (pack p m fs vs).length = SIZE p m fs ∧
    (unpack p m fs buf).length = fs.matCount ∧
    fitsFieldsB p m fs (unpack p m fs buf) = true ∧
    (∀ b : Nat, b ≠ 0 → unpackPayload p m .bool [b] = .vbool true) ∧
    (∀ bs : List Nat, bs.length = 4 → (∀ b ∈ bs, b < 256) →
      packPayload p m .float (unpackPayload p m .float bs) = bs) ∧
    (∀ bs : List Nat, bs.length = 8 → (∀ b ∈ bs, b < 256) →
      packPayload p m .double (unpackPayload p m .double bs) = bs) := by
  refine ⟨?_, ?_, ?_, ?_, ?_, ?_⟩
  · rw [pack, packFields_length p m fs vs 0 hv, SIZE_eq_sizeFrom]
  · rw [unpack, unpackFields_length]
  · exact unpackFields_fit p hp m fs buf 0 hwf hbytes
      (by rw [hlen, SIZE_eq_sizeFrom]; omega)
  · intro b hb0
    simp [unpackPayload, hb0]
  · intro bs h4 hb2
    have hob : ∀ b ∈ ordBytes (effLE p m) bs, b < 256 :=
      fun b hbm => hb2 b ((ordBytes_mem _ _ _).mp hbm)
    have hlen2 : (ordBytes (effLE p m) bs).length = 4 := by rw [ordBytes_length, h4]
    simp only [unpackPayload, packPayload]
    rw [show (4 : Nat) = (ordBytes (effLE p m) bs).length from hlen2.symm,
      natLeBytes_leBytesNat _ hob, ordBytes_ordBytes]
  · intro bs h8 hb2
    have hob : ∀ b ∈ ordBytes (effLE p m) bs, b < 256 :=
      fun b hbm => hb2 b ((ordBytes_mem _ _ _).mp hbm)
    have hlen2 : (ordBytes (effLE p m) bs).length = 8 := by rw [ordBytes_length, h8]
    simp only [unpackPayload, packPayload]
    rw [show (8 : Nat) = (ordBytes (effLE p m) bs).length from hlen2.symm,
      natLeBytes_leBytesNat _ hob, ordBytes_ordBytes]

theorem C2_totality_witness :
    Platform.WF x8664 ∧ wfFieldsB wFields1 = true ∧
    fitsFieldsB x8664 .littleEndian wFields1 wVals1 = true ∧
    ([1, 0, 0, 0, 255, 254, 253, 1] : List Nat).length = SIZE x8664 .littleEndian wFields1 ∧
    (∀ b ∈ ([1, 0, 0, 0, 255, 254, 253, 1] : List Nat), b < 256) ∧
    (pack x8664 .littleEndian wFields1 wVals1).length = SIZE x8664 .littleEndian wFields1 ∧
    (unpack x8664 .littleEndian wFields1 [1, 0, 0, 0, 255, 254, 253, 1]).length =
      wFields1.matCount ∧
    fitsFieldsB x8664 .littleEndian wFields1
      (unpack x8664 .littleEndian wFields1 [1, 0, 0, 0, 255, 254, 253, 1]) = true :=
  have h := C2_totality x8664 .littleEndian wFields1 wVals1
    [1, 0, 0, 0, 255, 254, 253, 1] (by decide) (by decide) (by decide) (by decide) (by decide)
  ⟨by decide, by decide, by decide, by decide, by decide, h.1, h.2.1, h.2.2.1⟩

/-- C3: the resolved layout satisfies the documented recurrence: first field
at offset 0 with alignment 0; each later field at the previous offset plus
the previous size; the alignment is the least correction to the natural
alignment of the field type in native mode and exactly 0 otherwise; the
field size is alignment plus payload; and `SIZE` is the last field's offset
plus its size, or 0 when there are no fields. -/
theorem C3_layout (p : Platform) (m : Modifier) (fs : Fields) (hp : p.WF) :
    (∀ r, (resolve p m fs).head? = some r → r.offset = 0 ∧ r.alignment = 0) ∧
    List.Chain' (fun a b => b.offset = a.offset + a.size) (resolve p m fs) ∧
    (∀ r ∈ resolve p m fs,
      r.size = r.alignment + payloadSize p m r.materialize r.fmt ∧
      (m.nativeTypes = false → r.alignment = 0) ∧
      (m.nativeTypes = true →
        (r.offset + r.alignment) % alignOf p true r.fmt = 0 ∧
        ∀ c < r.alignment, (r.offset + c) % alignOf p true r.fmt ≠ 0)) ∧
    (resolve p m fs = [] → SIZE p m fs = 0) ∧
    (∀ r, (resolve p m fs).getLast? = some r → SIZE p m fs = r.offset + r.size) := by
  refine ⟨?_, resolveAux_chain p m fs 0, ?_, ?_, ?_⟩
  · intro r hr
    have hoff := resolveAux_head_off p m fs 0 r hr
    have hmem : r ∈ resolve p m fs := by
      cases hres : resolve p m fs with
      | nil => rw [hres] at hr; simp at hr
      | cons a l =>
          rw [hres] at hr
          simp only [List.head?_cons, Option.some.injEq] at hr
          rw [← hr]
          exact List.mem_cons_self a l
    have hma := resolveAux_mem p m fs 0 r hmem
    refine ⟨hoff, ?_⟩
    rw [hma.2, hoff]
    cases m.nativeTypes <;> simp [alignCorr_zero]
  · intro r hr
    have hma := resolveAux_mem p m fs 0 r hr
    refine ⟨hma.1, ?_, ?_⟩
    · intro hfalse
      rw [hma.2, hfalse]
      simp
    · intro htrue
      have ha := alignOf_pos p hp true r.fmt
      have hs := alignCorr_spec (alignOf p true r.fmt) r.offset ha
      rw [hma.2, htrue]
      simpa using hs
  · intro hnil
    unfold SIZE
    rw [hnil]
    rfl
  · intro r hl
    unfold SIZE
    rw [hl]

theorem C3_layout_witness :
    Platform.WF x8664 ∧
    (∀ r, (resolve x8664 .native wFields1).head? = some r →
      r.offset = 0 ∧ r.alignment = 0) ∧
    List.Chain' (fun a b => b.offset = a.offset + a.size) (resolve x8664 .native wFields1) ∧
    (∀ r ∈ resolve x8664 .native wFields1,
      r.size = r.alignment + payloadSize x8664 .native r.materialize r.fmt ∧
      (Modifier.nativeTypes .native = false → r.alignment = 0) ∧
      (Modifier.nativeTypes .native = true →
        (r.offset + r.alignment) % alignOf x8664 true r.fmt = 0 ∧
        ∀ c < r.alignment, (r.offset + c) % alignOf x8664 true r.fmt ≠ 0)) ∧
    (resolve x8664 .native wFields1 = [] → SIZE x8664 .native wFields1 = 0) ∧
    (∀ r, (resolve x8664 .native wFields1).getLast? = some r →
      SIZE x8664 .native wFields1 = r.offset + r.size) :=
  ⟨by decide, C3_layout x8664 .native wFields1 (by decide)⟩

/-- C4: decoding from a slice reads exactly the first `SIZE` bytes (its
result is `unpack` of those bytes, and trailing bytes never matter), and a
slice shorter than `SIZE` makes the operation fail fatally (`none`, the
model of the panic) instead of truncating or reading out of bounds. -/
theorem C4_unpack_slice (p : Platform) (m : Modifier) (fs : Fields) (inp : List Nat)
    (hge : SIZE p m fs ≤ inp.length) :
    unpack_slice p m fs inp = some (unpack p m fs (inp.take (SIZE p m fs))) ∧
    (∀ extra : List Nat, unpack_slice p m fs (inp ++ extra) = unpack_slice p m fs inp) ∧
    (∀ bad : List Nat, bad.length < SIZE p m fs → unpack_slice p m fs bad = none) := by
  refine ⟨?_, ?_, ?_⟩
  · rw [unpack_slice, if_neg (by omega)]
  · intro extra
    have h1 : ¬ (inp ++ extra).length < SIZE p m fs := by
      simp only [List.length_append]
      omega
    rw [unpack_slice, if_neg h1, unpack_slice, if_neg (by omega),
      List.take_append_of_le_length hge]
  · intro bad hb
    rw [unpack_slice, if_pos hb]

theorem C4_unpack_slice_witness :
    SIZE x8664 .bigEndian wFields2 ≤ ([0, 1, 0, 2, 255, 255, 255, 255] : List Nat).length ∧
    unpack_slice x8664 .bigEndian wFields2 [0, 1, 0, 2, 255, 255, 255, 255] =
      some (unpack x8664 .bigEndian wFields2
        (([0, 1, 0, 2, 255, 255, 255, 255] : List Nat).take
          (SIZE x8664 .bigEndian wFields2))) ∧
    unpack_slice x8664 .bigEndian wFields2 [0, 1, 0] = none :=
  have h := C4_unpack_slice x8664 .bigEndian wFields2 [0, 1, 0, 2, 255, 255, 255, 255]
    (by decide)
  ⟨by decide, h.1, h.2.2 [0, 1, 0] (by decide)⟩

/-- C10: two buffers of length `SIZE` that agree on every materialized
field's payload region decode to the same structured value: bytes in
alignment regions, padding fields and zero-repeat fields never influence
the result. -/
theorem C10_noninterference (p : Platform) (m : Modifier) (fs : Fields)
    (buf1 buf2 : List Nat)
    (h1 : buf1.length = SIZE p m fs) (h2 : buf2.length = SIZE p m fs)
    (hagree : ∀ r ∈ resolve p m fs, r.materialize = true →
      (buf1.drop (r.offset + r.alignment)).take (r.size - r.alignment) =
      (buf2.drop (r.offset + r.alignment)).take (r.size - r.alignment)) :
    unpack p m fs buf1 = unpack p m fs buf2 :=
  unpackFields_agree p m fs 0 buf1 buf2 hagree

theorem C10_noninterference_witness :
    ([1, 9, 9, 2] : List Nat).length = SIZE x8664 .littleEndian fC10 ∧
    ([1, 0, 0, 2] : List Nat).length = SIZE x8664 .littleEndian fC10 ∧
    (∀ r ∈ resolve x8664 .littleEndian fC10, r.materialize = true →
      (([1, 9, 9, 2] : List Nat).drop (r.offset + r.alignment)).take
          (r.size - r.alignment) =
        (([1, 0, 0, 2] : List Nat).drop (r.offset + r.alignment)).take
          (r.size - r.alignment)) ∧
    unpack x8664 .littleEndian fC10 [1, 9, 9, 2] =
      unpack x8664 .littleEndian fC10 [1, 0, 0, 2] :=
  ⟨by decide, by decide, by decide,
    C10_noninterference x8664 .littleEndian fC10 [1, 9, 9, 2] [1, 0, 0, 2]
      (by decide) (by decide) (by decide)⟩

/-- C5: known byte vectors for single-scalar formats in mode `<` (IEEE-754
bits of `2.0f32` are `0x40000000`): `i8 7` packs to `[0x07]`, `i8 -7` to
`[0xF9]`, `u16 700` to `[0xBC, 0x02]` (reversed under the big-endian
modifier selected by both `>` and `!`), `i32 70000000` to
`[0x80, 0x1D, 0x2C, 0x04]`, `f32 2.0` to `[0x00, 0x00, 0x00, 0x40]`,
`bool true` to `[0x01]` and `bool false` to `[0x00]`. -/
theorem C5_known_values :
    (formatCharOf 'b' = some FormatChar.char ∧
      modifierOfChar '<' = some Modifier.littleEndian ∧
      pack x8664 .littleEndian (expand [⟨none, .char⟩]) [.vint 7] = [0x07] ∧
      pack x8664 .littleEndian (expand [⟨none, .char⟩]) [.vint (-7)] = [0xF9]) ∧
    (formatCharOf 'H' = some FormatChar.ushort ∧
      pack x8664 .littleEndian (expand [⟨none, .ushort⟩]) [.vnat 700] = [0xBC, 0x02] ∧
      modifierOfChar '>' = some Modifier.bigEndian ∧
      modifierOfChar '!' = some Modifier.bigEndian ∧
      pack x8664 .bigEndian (expand [⟨none, .ushort⟩]) [.vnat 700] = [0x02, 0xBC]) ∧
    (formatCharOf 'i' = some FormatChar.int ∧
      pack x8664 .littleEndian (expand [⟨none, .int⟩]) [.vint 70000000] =
        [0x80, 0x1D, 0x2C, 0x04]) ∧
    (formatCharOf 'f' = some FormatChar.float ∧
      pack x8664 .littleEndian (expand [⟨none, .float⟩]) [.vfloat 0x40000000] =
        [0x00, 0x00, 0x00, 0x40]) ∧
    (formatCharOf '?' = some FormatChar.bool ∧
      pack x8664 .littleEndian (expand [⟨none, .bool⟩]) [.vbool true] = [0x01] ∧
      pack x8664 .littleEndian (expand [⟨none, .bool⟩]) [.vbool false] = [0x00]) :=
  ⟨⟨rfl, rfl, by decide, by decide⟩, ⟨rfl, by decide, rfl, rfl, by decide⟩,
    ⟨rfl, by decide⟩, ⟨rfl, by decide⟩, ⟨rfl, by decide, by decide⟩⟩

/-- C6: compiling "b0q" (one `i8`, then a zero-repeat 64-bit field) in
native mode on a platform whose 64-bit alignment is 8 yields `SIZE = 8`,
while any non-native mode yields `SIZE = 1`; in both cases the structured
value has exactly one element — the zero-repeat field only pads the tail of
the native layout and never contributes a value. -/
theorem C6_zero_repeat (p : Platform) (m : Modifier)
    (h8 : p.longLongAlign = 8) (hm : m ≠ .native) :
    formatCharOf 'b' = some FormatChar.char ∧
    formatCharOf 'q' = some FormatChar.longLong ∧
    SIZE p .native f06 = 8 ∧ SIZE p m f06 = 1 ∧
    (∀ buf, (unpack p .native f06 buf).length = 1) ∧
    (∀ buf, (unpack p m f06 buf).length = 1) := by
  have hmn : m.nativeTypes = false := by
    cases m <;> simp_all [Modifier.nativeTypes]
  have hf : f06 = Fields.cons .char true (.cons .longLong false .nil) := rfl
  refine ⟨rfl, rfl, ?_, ?_, ?_, ?_⟩
  · rw [SIZE_eq_sizeFrom, hf]
    simp [sizeFrom, payloadSize, scalarWidth, alignOf, alignCorr,
      Modifier.nativeTypes, h8]
  · rw [SIZE_eq_sizeFrom, hf]
    simp [sizeFrom, payloadSize, scalarWidth, alignOf, alignCorr, hmn]
  · intro buf
    rw [unpack, unpackFields_length]
    rfl
  · intro buf
    rw [unpack, unpackFields_length]
    rfl

theorem C6_zero_repeat_witness :
    x8664.longLongAlign = 8 ∧ Modifier.nativeStandard ≠ Modifier.native ∧
    SIZE x8664 .native f06 = 8 ∧ SIZE x8664 .nativeStandard f06 = 1 ∧
    (∀ buf, (unpack x8664 .native f06 buf).length = 1) ∧
    (∀ buf, (unpack x8664 .nativeStandard f06 buf).length = 1) :=
  have h := C6_zero_repeat x8664 .nativeStandard rfl (by decide)
  ⟨rfl, by decide, h.2.2.1, h.2.2.2.1, h.2.2.2.2.1, h.2.2.2.2.2⟩

/-- C7 counterexample: a byte-array code `s` with declared length 0 (repeat
count `some 0`) expands into one field whose `materialize` flag is `false`:
it contributes no element to the structured value, so the claim that it
materializes a zero-length array element is false on the code. -/
theorem C7_counterexample :
    formatCharOf 's' = some FormatChar.array ∧
    expand [⟨some 0, FormatChar.array⟩] = Fields.cons (Fmt.array 0) false Fields.nil ∧
    (expand [⟨some 0, FormatChar.array⟩]).matCount = 0 ∧
    unpack x8664 .littleEndian (expand [⟨some 0, FormatChar.array⟩]) [] = [] :=
  ⟨rfl, rfl, rfl, rfl⟩

/-- C7 (amended): an array code expands into exactly one field whose
declared byte length is the repeat count (default 1) and which is
materialized exactly when that length is non-zero — a declared length of 0
is legal but contributes no element; a padding code always expands into
exactly one non-materialized field. -/
theorem C7_expansion (r : Option Nat) :
    expandCode ⟨r, .array⟩ = [(Fmt.array (r.getD 1), decide (r.getD 1 ≠ 0))] ∧
    expandCode ⟨r, .pad⟩ = [(Fmt.pad (r.getD 1), false)] := by
  cases r with
  | none => exact ⟨rfl, rfl⟩
  | some n =>
      cases n with
      | zero => exact ⟨rfl, rfl⟩
      | succ k => exact ⟨rfl, rfl⟩

/-- C8 counterexample: in standard (non-native) width mode the pointer-sized
character `n` resolves to `isize`, whose width differs between the x86-64
and i386 platforms — its standard-mode width is not platform-independent. -/
theorem C8_counterexample :
    formatCharOf 'n' = some FormatChar.size ∧
    fmtOfChar 1 FormatChar.size = Fmt.size ∧
    Modifier.littleEndian.nativeTypes = false ∧
    scalarWidth x8664 false Fmt.size ≠ scalarWidth i386 false Fmt.size :=
  ⟨rfl, rfl, rfl, by decide⟩

/-- C8 (amended): in every standard mode the integer and float characters
other than the pointer-sized `n` / `N` map to fixed widths of 1, 2, 4 or 8
bytes (8/16/32/64 bits) independent of the platform; `n` / `N` map to the
platform's pointer width even in standard modes. -/
theorem C8_standard_widths (p : Platform) (m : Modifier) (hm : m ≠ .native) :
    scalarWidth p m.nativeTypes .char = 1 ∧ scalarWidth p m.nativeTypes .uchar = 1 ∧
    scalarWidth p m.nativeTypes .short = 2 ∧ scalarWidth p m.nativeTypes .ushort = 2 ∧
    scalarWidth p m.nativeTypes .int = 4 ∧ scalarWidth p m.nativeTypes .uint = 4 ∧
    scalarWidth p m.nativeTypes .long = 4 ∧ scalarWidth p m.nativeTypes .ulong = 4 ∧
    scalarWidth p m.nativeTypes .longLong = 8 ∧
    scalarWidth p m.nativeTypes .ulongLong = 8 ∧
    scalarWidth p m.nativeTypes .float = 4 ∧ scalarWidth p m.nativeTypes .double = 8 ∧
    scalarWidth p m.nativeTypes .size = p.sizeSize ∧
    scalarWidth p m.nativeTypes .usize = p.sizeSize := by
  have hmn : m.nativeTypes = false := by
    cases m <;> simp_all [Modifier.nativeTypes]
  simp [hmn, scalarWidth]

theorem C8_standard_widths_witness :
    Modifier.littleEndian ≠ Modifier.native ∧
    (scalarWidth x8664 Modifier.littleEndian.nativeTypes .char = 1 ∧
      scalarWidth x8664 Modifier.littleEndian.nativeTypes .uchar = 1 ∧
      scalarWidth x8664 Modifier.littleEndian.nativeTypes .short = 2 ∧
      scalarWidth x8664 Modifier.littleEndian.nativeTypes .ushort = 2 ∧
      scalarWidth x8664 Modifier.littleEndian.nativeTypes .int = 4 ∧
      scalarWidth x8664 Modifier.littleEndian.nativeTypes .uint = 4 ∧
      scalarWidth x8664 Modifier.littleEndian.nativeTypes .long = 4 ∧
      scalarWidth x8664 Modifier.littleEndian.nativeTypes .ulong = 4 ∧
      scalarWidth x8664 Modifier.littleEndian.nativeTypes .longLong = 8 ∧
      scalarWidth x8664 Modifier.littleEndian.nativeTypes .ulongLong = 8 ∧
      scalarWidth x8664 Modifier.littleEndian.nativeTypes .float = 4 ∧
      scalarWidth x8664 Modifier.littleEndian.nativeTypes .double = 8 ∧
      scalarWidth x8664 Modifier.littleEndian.nativeTypes .size = x8664.sizeSize ∧
      scalarWidth x8664 Modifier.littleEndian.nativeTypes .usize = x8664.sizeSize) :=
  ⟨by decide, C8_standard_widths x8664 .littleEndian (by decide)⟩

/-- C9: the modifier table: `@` (and the absent-modifier default) selects
native order with native types, `=` selects native order without native
types, `<` selects little-endian, `>` and `!` both select big-endian;
native-type emulation is active exactly for the native modifier, and in
every non-native modifier the resolved alignments are all 0. -/
theorem C9_modifier_semantics (p : Platform) :
    modifierOfChar '@' = some Modifier.native ∧
    Modifier.default = Modifier.native ∧
    modifierOfChar '=' = some Modifier.nativeStandard ∧
    modifierOfChar '<' = some Modifier.littleEndian ∧
    modifierOfChar '>' = some Modifier.bigEndian ∧
    modifierOfChar '!' = some Modifier.bigEndian ∧
    Modifier.byteOrder .native = .native ∧
    Modifier.byteOrder .nativeStandard = .native ∧
    Modifier.byteOrder .littleEndian = .littleEndian ∧
    Modifier.byteOrder .bigEndian = .bigEndian ∧
    effLE p .littleEndian = true ∧
    effLE p .bigEndian = false ∧
    effLE p .native = p.isLE ∧
    effLE p .nativeStandard = p.isLE ∧
    (∀ m : Modifier, m.nativeTypes = true ↔ m = .native) ∧
    (∀ (m : Modifier) (fs : Fields) (r : RField),
      m ≠ .native → r ∈ resolve p m fs → r.alignment = 0) := by
  refine ⟨rfl, rfl, rfl, rfl, rfl, rfl, rfl, rfl, rfl, rfl, rfl, rfl, rfl, rfl, ?_, ?_⟩
  · intro m
    cases m <;> simp [Modifier.nativeTypes]
  · intro m fs r hm hr
    have hmn : m.nativeTypes = false := by
      cases m <;> simp_all [Modifier.nativeTypes]
    rw [(resolveAux_mem p m fs 0 r hr).2, hmn]
    simp

end Restruct
